import Mathlib

/-!
Verification of the variant-matrix core exposed by
`src/libsequence/src/variant_matrix.cc`.

The visible source file is the binding layer; the native core it wraps
(the `Sequence::VariantMatrix` constructor, `Sequence::StateCounts`
call operator, `Sequence::process_variable_sites`,
`Sequence::filter_sites` and `Sequence::filter_haplotypes`) is not part
of the visible sources, so those operations are modelled from the
specification, as marked in the doc comments below.  Genotype values
(C++ `int8_t`) are modelled as `Int`; genomic positions (C++ `double`,
carried along but never computed with) are modelled as `ℚ`; per-state
occurrence counters (C++ `int32_t`, only ever incremented) as `Nat`.
Fallible operations return `Except String`.
-/

deriving instance DecidableEq for Except

namespace Sequence

/-- Modelled from the spec: the reserved "missing data" sentinel
(`Sequence::VariantMatrix::mask`, defined in the native header, not in
the visible sources).  The spec fixes it only as a reserved constant
that never collides with a meaningful allelic state; allelic states are
the non-negative small integers, so the model uses -1. -/
def mask : Int := -1

/-- Modelled from the spec: the fixed size of the `StateCounts.counts`
table.  The native header fixes a concrete size; the spec leaves it an
open choice ("a small finite set such as \x7b0,1,2,3\x7d") and asks the
implementer to pick and document one, so the model uses 4.  No claim
below depends on the particular value. -/
def NSTATES : Nat := 4

/-- The matrix store: packed row-major genotype buffer (one row per
site), per-site positions, and the derived shape fields exposed by the
binding layer as `data`, `positions`, `nsites`, `nsam`. -/
structure VariantMatrix where
  data : List Int
  positions : List ℚ
  nsites : Nat
  nsam : Nat
deriving DecidableEq, Repr

/-- Shape invariant of a store, as stated in the spec:
`data.length == nsites * nsam` and `positions.length == nsites`. -/
abbrev WF (m : VariantMatrix) : Prop :=
  m.data.length = m.nsites * m.nsam ∧ m.positions.length = m.nsites

/-- Modelled from the spec: the native `Sequence::VariantMatrix`
constructor reached by the flat-list overload of `VariantMatrix.__init__`
(the binding forwards both buffers to the native constructor, which is
not in the visible sources).  Fails with `InvalidShape` when
`positions.length` does not evenly divide `data.length` in a way
consistent with an inferred `nsam`; on success `nsites` is the number of
positions and `nsam` the quotient. -/
def VariantMatrix.construct (data : List Int) (positions : List ℚ) :
    Except String VariantMatrix :=
  if positions.length = 0 then
    if data.length = 0 then
      Except.ok ⟨data, positions, 0, 0⟩
    else
      Except.error "InvalidShape"
  else if data.length % positions.length = 0 then
    Except.ok ⟨data, positions, positions.length, data.length / positions.length⟩
  else
    Except.error "InvalidShape"

/-- A host ndarray, as seen through the binding layer: a shape vector
(one entry per dimension) and the row-major flat buffer. -/
structure NDArray (α : Type) where
  shape : List Nat
  flat : List α
deriving DecidableEq, Repr

/-- The ndarray overload of `VariantMatrix.__init__`
(`variant_matrix.cc` lines 36-62): rejects data that is not 2-D,
positions that are not 1-D, and a position count different from
`data.shape[0]`; otherwise forwards the row-major flat buffer and the
positions to the native constructor (modelled by
`VariantMatrix.construct`). -/
def VariantMatrix.fromNDArray (data : NDArray Int) (pos : NDArray ℚ) :
    Except String VariantMatrix :=
  if data.shape.length ≠ 2 then
    Except.error "data must be a 2d ndarray"
  else if pos.shape.length ≠ 1 then
    Except.error "pos must be a 1d ndarray"
  else if pos.flat.length ≠ data.shape.getD 0 0 then
    Except.error "len(pos) must equal data.shape 0"
  else
    VariantMatrix.construct data.flat pos.flat

/-- The site view (`VariantMatrix.site(i)` / `get_ConstRowView`): the
`nsam` contiguous elements at row offset `i * nsam`. -/
def VariantMatrix.site (m : VariantMatrix) (i : Nat) : List Int :=
  (m.data.drop (i * m.nsam)).take m.nsam

/-- The sample view (`VariantMatrix.sample(j)` / `get_ConstColView`):
the `nsites` elements at column offset `j`, stride `nsam`. -/
def VariantMatrix.sample (m : VariantMatrix) (j : Nat) : List Int :=
  (List.range m.nsites).map (fun i => m.data.getD (i * m.nsam + j) 0)

/-- The pickling `__getstate__` hook (`variant_matrix.cc` lines
185-188): a store serializes to the pair `(data, positions)`. -/
def VariantMatrix.getstate (m : VariantMatrix) : List Int × List ℚ :=
  (m.data, m.positions)

/-- The pickling `__setstate__` hook (`variant_matrix.cc` lines
189-197): the pair is fed back through the native constructor. -/
def VariantMatrix.setstate (t : List Int × List ℚ) :
    Except String VariantMatrix :=
  VariantMatrix.construct t.1 t.2

/-- The per-site allele counter exposed by the binding as
`StateCounts`: the fixed-size per-state table, the optional reference
state, and the number of non-missing observations folded in. -/
structure StateCounts where
  counts : List Nat
  refstate : Option Int
  n : Nat
deriving DecidableEq, Repr

/-- A freshly constructed `StateCounts` (the `StateCounts()` /
`StateCounts(refstate)` constructors): an all-zero table of the fixed
size and `n = 0`. -/
def StateCounts.fresh (r : Option Int) : StateCounts :=
  { counts := List.replicate NSTATES 0, refstate := r, n := 0 }

/-- Modelled from the spec: one step of the native
`StateCounts::operator()` loop (not in the visible sources).  An element
equal to `mask` is skipped entirely; an in-range element increments its
table entry and `n`; a non-missing element outside the allelic-state
index range fails with `InvalidState`. -/
def StateCounts.applyOne (c : StateCounts) (x : Int) :
    Except String StateCounts :=
  if x = mask then
    Except.ok c
  else if 0 ≤ x ∧ x.toNat < c.counts.length then
    Except.ok { c with
      counts := c.counts.set x.toNat (c.counts.getD x.toNat 0 + 1),
      n := c.n + 1 }
  else
    Except.error "InvalidState"

/-- Modelled from the spec: the native `StateCounts::operator()`
(`StateCounts.__call__` in the binding) folded over one view; throwing
aborts the loop. -/
def StateCounts.apply (c : StateCounts) : List Int → Except String StateCounts
  | [] => Except.ok c
  | x :: xs =>
    match c.applyOne x with
    | Except.ok c1 => c1.apply xs
    | Except.error e => Except.error e

/-- The `StateCounts.__getitem__` binding (`variant_matrix.cc` lines
311-318): bounds-checked read of the counts table. -/
def StateCounts.getitem (c : StateCounts) (i : Nat) : Except String Nat :=
  if i < c.counts.length then
    Except.ok (c.counts.getD i 0)
  else
    Except.error "index out of range"

/-- Modelled from the spec: the variability test of the site scanner —
a site is variable iff more than one state has a nonzero count. -/
def isVariable (c : StateCounts) : Bool :=
  decide (1 < c.counts.countP (fun k => k != 0))

/-- Modelled from the spec: the scanning loop of the native
`Sequence::process_variable_sites` over a list of site indices: per
site, a fresh counter seeded with that site's resolved reference state
is applied to the site view, and only variable sites are retained, in
site order. -/
def scanSites (m : VariantMatrix) (refs : Nat → Option Int) :
    List Nat → Except String (List StateCounts)
  | [] => Except.ok []
  | i :: is =>
    match (StateCounts.fresh (refs i)).apply (m.site i) with
    | Except.ok c =>
      match scanSites m refs is with
      | Except.ok cs => Except.ok (if isVariable c then c :: cs else cs)
      | Except.error e => Except.error e
    | Except.error e => Except.error e

/-- Modelled from the spec: the native `Sequence::process_variable_sites`
(the binding dispatches the absent / scalar / per-site reference-state
shapes onto it; `refs` is the resolved per-site effective reference
state, `fun _ => none` for the no-polarization call). -/
def process_variable_sites (m : VariantMatrix) (refs : Nat → Option Int) :
    Except String (List StateCounts) :=
  scanSites m refs (List.range m.nsites)

/-- Modelled from the spec: the native `Sequence::filter_sites` — the
predicate marks sites for removal; retained site rows are compacted
contiguously in their original relative order, positions in lock-step,
and `nsites` becomes the retained count. -/
def filter_sites (m : VariantMatrix) (f : List Int → Bool) : VariantMatrix :=
  let kept := (List.range m.nsites).filter (fun i => ! f (m.site i))
  { data := (kept.map (fun i => m.site i)).flatten,
    positions := kept.filterMap (fun i => m.positions[i]?),
    nsites := kept.length,
    nsam := m.nsam }

/-- Modelled from the spec: the native `Sequence::filter_haplotypes` —
the removal decision is taken once per sample against the pre-mutation
store, then every site row is compacted over the retained columns;
`nsam` becomes the retained count, `positions` and `nsites` are
untouched. -/
def filter_haplotypes (m : VariantMatrix) (f : List Int → Bool) : VariantMatrix :=
  let kept := (List.range m.nsam).filter (fun j => ! f (m.sample j))
  { data := ((List.range m.nsites).map
      (fun i => kept.map (fun j => m.data.getD (i * m.nsam + j) 0))).flatten,
    positions := m.positions,
    nsites := m.nsites,
    nsam := kept.length }

/-- Whether a fallible operation failed. -/
def isErr {ε α : Type} : Except ε α → Bool
  | Except.error _ => true
  | Except.ok _ => false

/-- The store of the documented end-to-end example:
`VariantMatrix([0,1,1,0],[0.1,0.2])`. -/
def exM : VariantMatrix :=
  { data := [0, 1, 1, 0], positions := [mkRat 1 10, mkRat 2 10],
    nsites := 2, nsam := 2 }

/-! ### General list helpers -/

/-- Setting an entry and reading it back. -/
theorem getD_set_self (l : List Nat) (i : Nat) (a : Nat) (h : i < l.length) :
    (l.set i a).getD i 0 = a := by
  simp [List.getD_eq_getElem?_getD, List.getElem?_set, h]

/-- Setting an entry leaves the other entries unchanged. -/
theorem getD_set_other (l : List Nat) (i s : Nat) (a : Nat) (h : i ≠ s) :
    (l.set i a).getD s 0 = l.getD s 0 := by
  simp [List.getD_eq_getElem?_getD, List.getElem?_set, h]

/-- Incrementing one in-range entry increments the total. -/
theorem sum_set_succ :
    ∀ (l : List Nat) (i : Nat), i < l.length →
      (l.set i (l.getD i 0 + 1)).sum = l.sum + 1
  | [], i, h => by simp at h
  | x :: xs, 0, _ => by simp; omega
  | x :: xs, i + 1, h => by
    have ih := sum_set_succ xs i (by simpa using h)
    simp only [List.set_cons_succ, List.getD_cons_succ, List.sum_cons, ih]
    omega

/-- A flatten of blocks of a common length. -/
theorem flatten_length_const {α : Type} (k : Nat) :
    ∀ L : List (List α), (∀ x ∈ L, x.length = k) →
      L.flatten.length = L.length * k
  | [], _ => by simp
  | x :: xs, h => by
    have hx : x.length = k := h x (List.mem_cons_self x xs)
    have ihx := flatten_length_const k xs (fun y hy => h y (List.mem_cons_of_mem x hy))
    simp [hx, ihx, Nat.succ_mul, Nat.add_comm]

/-- Dropping past a prefix of known length. -/
theorem drop_append_len {α : Type} (l₁ l₂ : List α) (n : Nat) :
    (l₁ ++ l₂).drop (l₁.length + n) = l₂.drop n := by
  rw [← List.drop_drop, List.drop_left]

/-- Cutting a row-major buffer back into its rows. -/
theorem flatten_chunks (k : Nat) :
    ∀ (n : Nat) (data : List Int), data.length = n * k →
      ((List.range n).map (fun i => (data.drop (i * k)).take k)).flatten = data := by
  intro n
  induction n with
  | zero =>
    intro data h
    have hd : data = [] := List.length_eq_zero.mp (by simpa using h)
    simp [hd]
  | succ n ih =>
    intro data h
    rw [List.range_succ_eq_map, List.map_cons, List.map_map, List.flatten_cons]
    have h1 : (data.drop k).length = n * k := by
      simp [h, Nat.succ_mul]
    have h2 : ((fun i => (data.drop (i * k)).take k) ∘ Nat.succ)
        = fun i => ((data.drop k).drop (i * k)).take k := by
      funext i
      simp [Function.comp, List.drop_drop, Nat.succ_mul, Nat.add_comm]
    rw [h2, ih (data.drop k) h1]
    simp [List.take_append_drop]

/-- Extracting one row of a flatten of rows of a common length. -/
theorem flatten_chunk_getD {α : Type} (k : Nat) :
    ∀ (L : List (List α)) (j : Nat), (∀ x ∈ L, x.length = k) → j < L.length →
      ((L.flatten.drop (j * k)).take k) = L.getD j [] := by
  intro L
  induction L with
  | nil => intro j _ hj; simp at hj
  | cons x xs ih =>
    intro j h hj
    have hx : x.length = k := h x (List.mem_cons_self x xs)
    cases j with
    | zero =>
      rw [List.flatten_cons, Nat.zero_mul, List.drop_zero, List.getD_cons_zero, ← hx]
      exact List.take_left x xs.flatten
    | succ j =>
      have hdrop : (x :: xs).flatten.drop ((j + 1) * k) = xs.flatten.drop (j * k) := by
        rw [List.flatten_cons, Nat.succ_mul, ← hx, Nat.add_comm (j * x.length) x.length,
          drop_append_len]
      rw [hdrop, List.getD_cons_succ]
      exact ih j (fun y hy => h y (List.mem_cons_of_mem x hy)) (by simp at hj; omega)

/-- Indexed `filterMap` over in-range indices keeps every index. -/
theorem filterMap_getElem?_length {α : Type} (l : List α) :
    ∀ K : List Nat, (∀ i ∈ K, i < l.length) →
      (K.filterMap (fun i => l[i]?)).length = K.length
  | [], _ => rfl
  | i :: K, h => by
    have hi := List.getElem?_eq_getElem (h i (List.mem_cons_self i K))
    have ih := filterMap_getElem?_length l K (fun j hj => h j (List.mem_cons_of_mem i hj))
    simp [List.filterMap_cons, hi, ih]

/-- Reading back the `j`-th element of an indexed `filterMap`. -/
theorem filterMap_getElem?_getElem? {α : Type} (l : List α) :
    ∀ (K : List Nat) (j : Nat), (∀ i ∈ K, i < l.length) →
      j < K.length → (K.filterMap (fun i => l[i]?))[j]? = l[K.getD j 0]?
  | [], j, _, hj => by simp at hj
  | i :: K, 0, h, _ => by
    have hi := List.getElem?_eq_getElem (h i (List.mem_cons_self i K))
    simp [List.filterMap_cons, hi]
  | i :: K, j + 1, h, hj => by
    have hi := List.getElem?_eq_getElem (h i (List.mem_cons_self i K))
    have ih := filterMap_getElem?_getElem? l K j
      (fun a ha => h a (List.mem_cons_of_mem i ha)) (by simpa using hj)
    simp [List.filterMap_cons, hi, List.getD_cons_succ, ih]

/-- Indexed `filterMap` over the whole index range reproduces the list. -/
theorem filterMap_getElem?_range {α : Type} :
    ∀ l : List α, (List.range l.length).filterMap (fun i => l[i]?) = l
  | [] => rfl
  | x :: l => by
    rw [List.length_cons, List.range_succ_eq_map, List.filterMap_cons]
    simp only [List.getElem?_cons_zero, List.filterMap_map, Function.comp_def,
      List.getElem?_cons_succ]
    rw [filterMap_getElem?_range l]

/-- A list whose entries are given by a function of the index is a
mapped range. -/
theorem eq_map_range_of_getD {α : Type} (l : List α) (d : α) (g : Nat → α) (n : Nat)
    (hl : l.length = n) (h : ∀ s, s < n → l.getD s d = g s) :
    l = (List.range n).map g := by
  apply List.ext_getElem?
  intro i
  by_cases hi : i < n
  · have hsome := List.getElem?_eq_getElem (show i < l.length by omega)
    have hget := h i hi
    rw [List.getD_eq_getElem?_getD, hsome, Option.getD_some] at hget
    rw [hsome, hget, List.getElem?_map, List.getElem?_range hi, Option.map_some']
  · rw [List.getElem?_eq_none (by omega), List.getElem?_eq_none (by simp; omega)]

/-- A duplicate-free list has two distinct members iff its length
exceeds one. -/
theorem one_lt_length_iff_pair {α : Type} [DecidableEq α] (l : List α) (hl : l.Nodup) :
    1 < l.length ↔ ∃ a ∈ l, ∃ b ∈ l, a ≠ b := by
  rw [← List.toFinset_card_of_nodup hl, Finset.one_lt_card]
  constructor
  · rintro ⟨a, ha, b, hb, hab⟩
    exact ⟨a, List.mem_toFinset.mp ha, b, List.mem_toFinset.mp hb, hab⟩
  · rintro ⟨a, ha, b, hb, hab⟩
    exact ⟨a, List.mem_toFinset.mpr ha, b, List.mem_toFinset.mpr hb, hab⟩

/-! ### State-counter lemmas -/

/-- Case analysis of one successful counting step. -/
theorem applyOne_ok (c c1 : StateCounts) (x : Int)
    (h : c.applyOne x = Except.ok c1) :
    (x = mask ∧ c1 = c) ∨
    (x ≠ mask ∧ 0 ≤ x ∧ x.toNat < c.counts.length ∧
      c1 = { c with
        counts := c.counts.set x.toNat (c.counts.getD x.toNat 0 + 1),
        n := c.n + 1 }) := by
  unfold StateCounts.applyOne at h
  split at h
  · injection h with h
    exact Or.inl ⟨by assumption, h.symm⟩
  · split at h
    · rename_i hmask hrange
      injection h with h
      exact Or.inr ⟨hmask, hrange.1, hrange.2, h.symm⟩
    · cases h

/-- What a successful fold of the counter over a view guarantees: the
table keeps its size, the reference state is untouched, `n` and the
table total both grow by the number of non-missing elements, every
non-missing element was in the allelic index range, and each table
entry grows by the multiplicity of its state in the view. -/
theorem apply_ok_spec :
    ∀ (v : List Int) (c c' : StateCounts), c.apply v = Except.ok c' →
      c'.counts.length = c.counts.length ∧
      c'.refstate = c.refstate ∧
      c'.n = c.n + v.countP (fun x => x != mask) ∧
      c'.counts.sum = c.counts.sum + v.countP (fun x => x != mask) ∧
      (∀ x ∈ v, x ≠ mask → 0 ≤ x ∧ x.toNat < c.counts.length) ∧
      (∀ s : Nat, c'.counts.getD s 0 = c.counts.getD s 0 + v.count (Int.ofNat s))
  | [], c, c', h => by
    cases h
    simp [StateCounts.apply]
  | x :: xs, c, c', h => by
    rw [StateCounts.apply] at h
    cases hx : c.applyOne x with
    | error e => rw [hx] at h; cases h
    | ok c1 =>
      rw [hx] at h
      obtain ⟨hlen, href, hn, hsum, hmem, hget⟩ := apply_ok_spec xs c1 c' h
      rcases applyOne_ok c c1 x hx with ⟨hm, rfl⟩ | ⟨hm, hx0, hxlt, rfl⟩
      · subst hm
        have hc : List.countP (fun y => y != mask) (mask :: xs)
            = List.countP (fun y => y != mask) xs := by
          simp [List.countP_cons]
        have hcnt : ∀ s : Nat, List.count (Int.ofNat s) (mask :: xs)
            = List.count (Int.ofNat s) xs := by
          intro s
          refine List.count_cons_of_ne ?_ xs
          have hnn : (0 : Int) ≤ Int.ofNat s := Int.ofNat_nonneg s
          rw [mask]
          omega
        refine ⟨hlen, href, ?_, ?_, ?_, ?_⟩
        · rw [hc]; exact hn
        · rw [hc]; exact hsum
        · intro y hy hym
          rcases List.mem_cons.mp hy with rfl | hy'
          · exact absurd rfl hym
          · exact hmem y hy' hym
        · intro s
          rw [hcnt s]; exact hget s
      · have hxne : (x != mask) = true := by simp [hm]
        have hx' : Int.ofNat x.toNat = x := Int.toNat_of_nonneg hx0
        have hc : List.countP (fun y => y != mask) (x :: xs)
            = List.countP (fun y => y != mask) xs + 1 := by
          rw [List.countP_cons, hxne]
          simp
        dsimp only at hlen hn hsum hmem hget
        refine ⟨by rw [hlen, List.length_set], href, ?_, ?_, ?_, ?_⟩
        · rw [hn, hc]; omega
        · rw [hsum, sum_set_succ c.counts x.toNat hxlt, hc]; omega
        · intro y hy hym
          rcases List.mem_cons.mp hy with rfl | hy'
          · exact ⟨hx0, hxlt⟩
          · have hb := hmem y hy' hym
            rwa [List.length_set] at hb
        · intro s
          rw [hget s]
          by_cases hsx : s = x.toNat
          · subst hsx
            rw [getD_set_self c.counts x.toNat _ hxlt]
            have hcc : List.count (Int.ofNat x.toNat) (x :: xs)
                = List.count (Int.ofNat x.toNat) xs + 1 := by
              rw [hx']
              exact List.count_cons_self x xs
            rw [hcc]
            omega
          · rw [getD_set_other c.counts x.toNat s _ (fun hh => hsx hh.symm)]
            have hne : Int.ofNat s ≠ x := by
              intro hh
              rw [← hx'] at hh
              exact hsx (Int.ofNat.inj hh)
            rw [List.count_cons_of_ne hne xs]

/-- A fresh counter has an all-zero table of the fixed size. -/
theorem fresh_getD (r : Option Int) (s : Nat) :
    (StateCounts.fresh r).counts.getD s 0 = 0 := by
  rw [StateCounts.fresh, List.getD_eq_getElem?_getD, List.getElem?_replicate]
  split <;> simp

/-! ### Store lemmas -/

/-- Under the shape invariant, every in-range site view has exactly
`nsam` elements. -/
theorem length_site (m : VariantMatrix) (h : WF m) (i : Nat) (hi : i < m.nsites) :
    (m.site i).length = m.nsam := by
  have h1 : (i + 1) * m.nsam ≤ m.nsites * m.nsam :=
    Nat.mul_le_mul_right _ (by omega)
  rw [Nat.succ_mul] at h1
  simp only [VariantMatrix.site, List.length_take, List.length_drop, h.1]
  omega

/-- Reading a site view element is reading the packed buffer at the
strided offset. -/
theorem getD_site (m : VariantMatrix) (i j : Nat) (hj : j < m.nsam) :
    (m.site i).getD j 0 = m.data.getD (i * m.nsam + j) 0 := by
  simp [VariantMatrix.site, List.getD_eq_getElem?_getD, List.getElem?_take, hj,
    List.getElem?_drop]

/-- A successful construction satisfies the shape invariant and keeps
both input buffers unchanged. -/
theorem construct_ok (d : List Int) (p : List ℚ) (m : VariantMatrix)
    (h : VariantMatrix.construct d p = Except.ok m) :
    m.data = d ∧ m.positions = p ∧ WF m := by
  unfold VariantMatrix.construct at h
  split at h
  · split at h
    · injection h with h
      subst h
      rename_i hp hd
      refine ⟨rfl, rfl, ?_, ?_⟩ <;> simp [hp, hd]
    · cases h
  · split at h
    · injection h with h
      subst h
      rename_i hp hd
      refine ⟨rfl, rfl, ?_, rfl⟩
      exact (Nat.div_mul_cancel (Nat.dvd_of_mod_eq_zero hd)).symm.trans
        (Nat.mul_comm _ _)
    · cases h

/-- The index list retained by `filter_sites`, and its basic facts. -/
theorem filter_sites_kept (m : VariantMatrix) (f : List Int → Bool) :
    ((List.range m.nsites).filter (fun i => ! f (m.site i))).Pairwise (· < ·) ∧
    (∀ i, i ∈ (List.range m.nsites).filter (fun i => ! f (m.site i)) ↔
      (i < m.nsites ∧ f (m.site i) = false)) := by
  constructor
  · exact (List.pairwise_lt_range m.nsites).sublist (List.filter_sublist _)
  · intro i
    rw [List.mem_filter, List.mem_range]
    simp [Bool.not_eq_true']

/-- `filter_sites` preserves the shape invariant. -/
theorem filter_sites_wf (m : VariantMatrix) (f : List Int → Bool) (h : WF m) :
    WF (filter_sites m f) := by
  set kept := (List.range m.nsites).filter (fun i => ! f (m.site i)) with hkept
  have hmem : ∀ i ∈ kept, i < m.nsites := by
    intro i hi
    exact List.mem_range.mp (List.mem_of_mem_filter hi)
  constructor
  · show (kept.map (fun i => m.site i)).flatten.length = kept.length * m.nsam
    rw [flatten_length_const m.nsam]
    · rw [List.length_map]
    · intro x hxm
      obtain ⟨i, hi, rfl⟩ := List.mem_map.mp hxm
      exact length_site m h i (hmem i hi)
  · show (kept.filterMap (fun i => m.positions[i]?)).length = kept.length
    exact filterMap_getElem?_length m.positions kept
      (fun i hi => by rw [h.2]; exact hmem i hi)

/-- `filter_haplotypes` preserves the shape invariant. -/
theorem filter_haplotypes_wf (m : VariantMatrix) (f : List Int → Bool) (h : WF m) :
    WF (filter_haplotypes m f) := by
  set kept := (List.range m.nsam).filter (fun j => ! f (m.sample j)) with hkept
  constructor
  · show ((List.range m.nsites).map
        (fun i => kept.map (fun j => m.data.getD (i * m.nsam + j) 0))).flatten.length
      = m.nsites * kept.length
    rw [flatten_length_const kept.length]
    · rw [List.length_map, List.length_range]
    · intro x hxm
      obtain ⟨i, _, rfl⟩ := List.mem_map.mp hxm
      exact List.length_map _ _
  · exact h.2

/-- Characterization of one successful scan of a site-index list: the
output is the in-order `filterMap` keeping exactly the variable sites,
and every scanned site was counted without error. -/
theorem scanSites_ok (m : VariantMatrix) (refs : Nat → Option Int) :
    ∀ (l : List Nat) (cs : List StateCounts), scanSites m refs l = Except.ok cs →
      cs = l.filterMap (fun i =>
        match (StateCounts.fresh (refs i)).apply (m.site i) with
        | Except.ok c => if isVariable c then some c else none
        | Except.error _ => none) ∧
      (∀ i ∈ l, ∃ c, (StateCounts.fresh (refs i)).apply (m.site i) = Except.ok c)
  | [], cs, h => by
    cases h
    exact ⟨rfl, by simp⟩
  | i :: l, cs, h => by
    rw [scanSites] at h
    cases hi : (StateCounts.fresh (refs i)).apply (m.site i) with
    | error e => rw [hi] at h; cases h
    | ok c =>
      rw [hi] at h
      cases hrest : scanSites m refs l with
      | error e => rw [hrest] at h; cases h
      | ok cs' =>
        rw [hrest] at h
        injection h with h
        obtain ⟨hcs, hall⟩ := scanSites_ok m refs l cs' hrest
        subst h
        constructor
        · rw [List.filterMap_cons, hi]
          by_cases hv : isVariable c <;> simp [hv, hcs]
        · intro j hj
          rcases List.mem_cons.mp hj with rfl | hj'
          · exact ⟨c, hi⟩
          · exact hall j hj'

/-- The variability test on a counter produced by one pass over a view:
variable iff the view holds two distinct non-missing values. -/
theorem isVariable_iff (r : Option Int) (v : List Int) (c : StateCounts)
    (h : (StateCounts.fresh r).apply v = Except.ok c) :
    (isVariable c = true ↔ ∃ a ∈ v, ∃ b ∈ v, a ≠ mask ∧ b ≠ mask ∧ a ≠ b) := by
  obtain ⟨hlen, -, -, -, hmem, hget⟩ := apply_ok_spec v (StateCounts.fresh r) c h
  have hlen' : c.counts.length = NSTATES := by
    rw [hlen]
    simp [StateCounts.fresh]
  have hmem' : ∀ x ∈ v, x ≠ mask → 0 ≤ x ∧ x.toNat < NSTATES := by
    intro x hx hxm
    have := hmem x hx hxm
    simpa [StateCounts.fresh] using this
  have hget' : ∀ s : Nat, c.counts.getD s 0 = v.count (Int.ofNat s) := by
    intro s
    rw [hget s, fresh_getD]
    simp
  have hcounts : c.counts = (List.range NSTATES).map (fun s => v.count (Int.ofNat s)) :=
    eq_map_range_of_getD c.counts 0 _ NSTATES hlen' (fun s _ => hget' s)
  have hcountP : c.counts.countP (fun k => k != 0)
      = ((List.range NSTATES).filter (fun s => v.count (Int.ofNat s) != 0)).length := by
    rw [hcounts, List.countP_map, ← List.countP_eq_length_filter]
    rfl
  set w := (List.range NSTATES).filter (fun s => v.count (Int.ofNat s) != 0) with hw
  have hwnodup : w.Nodup := (List.nodup_range NSTATES).filter _
  have hwmem : ∀ s, s ∈ w ↔ (s < NSTATES ∧ Int.ofNat s ∈ v) := by
    intro s
    rw [hw, List.mem_filter, List.mem_range]
    constructor
    · rintro ⟨h1, h2⟩
      refine ⟨h1, ?_⟩
      rw [bne_iff_ne, ne_eq] at h2
      exact List.count_pos_iff.mp (Nat.pos_of_ne_zero h2)
    · rintro ⟨h1, h2⟩
      refine ⟨h1, ?_⟩
      rw [bne_iff_ne, ne_eq]
      exact Nat.pos_iff_ne_zero.mp (List.count_pos_iff.mpr h2)
  rw [isVariable, decide_eq_true_iff, hcountP, one_lt_length_iff_pair w hwnodup]
  constructor
  · rintro ⟨sa, hsa, sb, hsb, hab⟩
    obtain ⟨-, hsa2⟩ := (hwmem sa).mp hsa
    obtain ⟨-, hsb2⟩ := (hwmem sb).mp hsb
    refine ⟨Int.ofNat sa, hsa2, Int.ofNat sb, hsb2, ?_, ?_, ?_⟩
    · have hnn : (0 : Int) ≤ Int.ofNat sa := Int.ofNat_nonneg sa
      rw [mask]
      omega
    · have hnn : (0 : Int) ≤ Int.ofNat sb := Int.ofNat_nonneg sb
      rw [mask]
      omega
    · intro hh
      exact hab (Int.ofNat.inj hh)
  · rintro ⟨a, ha, b, hb, ham, hbm, hab⟩
    obtain ⟨ha0, halt⟩ := hmem' a ha ham
    obtain ⟨hb0, hblt⟩ := hmem' b hb hbm
    have haeq : Int.ofNat a.toNat = a := Int.toNat_of_nonneg ha0
    have hbeq : Int.ofNat b.toNat = b := Int.toNat_of_nonneg hb0
    refine ⟨a.toNat, (hwmem a.toNat).mpr ⟨halt, by rw [haeq]; exact ha⟩,
            b.toNat, (hwmem b.toNat).mpr ⟨hblt, by rw [hbeq]; exact hb⟩, ?_⟩
    intro hh
    apply hab
    rw [← haeq, ← hbeq, hh]

/-! ### Claim theorems -/

/-- C1: the store built from data = [0,1,1,0] and positions = [0.1,0.2]
has nsites = 2 and nsam = 2, and `process_variable_sites` with no
reference state returns exactly two `StateCounts` entries, one per site
in site order, each with n = 2, counts[0] = 1 and counts[1] = 1. -/
theorem end_to_end_counts_example :
    ∃ m : VariantMatrix,
      VariantMatrix.construct [0, 1, 1, 0] [mkRat 1 10, mkRat 2 10] = Except.ok m ∧
      m.nsites = 2 ∧ m.nsam = 2 ∧
      process_variable_sites m (fun _ => none) =
        Except.ok [⟨[1, 1, 0, 0], none, 2⟩, ⟨[1, 1, 0, 0], none, 2⟩] ∧
      ∀ c ∈ [(⟨[1, 1, 0, 0], none, 2⟩ : StateCounts), ⟨[1, 1, 0, 0], none, 2⟩],
        c.n = 2 ∧ c.counts.getD 0 0 = 1 ∧ c.counts.getD 1 0 = 1 :=
  ⟨exM, by decide, rfl, rfl, by decide, by decide⟩

/-- C2: every successfully constructed store satisfies the shape
invariant `data.length = nsites * nsam ∧ positions.length = nsites`,
and both filtering operations preserve it.  Counting
(`process_variable_sites`) takes the store unchanged and returns a
separate list, so it trivially preserves the invariant in this pure
model. -/
theorem shape_invariant_spec :
    (∀ (d : List Int) (p : List ℚ) (m : VariantMatrix),
      VariantMatrix.construct d p = Except.ok m → WF m) ∧
    (∀ (m : VariantMatrix) (f : List Int → Bool), WF m → WF (filter_sites m f)) ∧
    (∀ (m : VariantMatrix) (f : List Int → Bool), WF m → WF (filter_haplotypes m f)) :=
  ⟨fun d p m h => (construct_ok d p m h).2.2,
   fun m f h => filter_sites_wf m f h,
   fun m f h => filter_haplotypes_wf m f h⟩

/-- Witness for C2 at the example store. -/
theorem shape_invariant_witness :
    WF exM ∧
    WF (filter_sites exM (fun v => v.getD 0 0 == 1)) ∧
    WF (filter_haplotypes exM (fun v => v.getD 0 0 == 1)) :=
  ⟨shape_invariant_spec.1 [0, 1, 1, 0] [mkRat 1 10, mkRat 2 10] exM (by decide),
   shape_invariant_spec.2.1 exM _ (by decide),
   shape_invariant_spec.2.2 exM _ (by decide)⟩

/-- C3: a successful application of the counter to a view skips every
`mask` element (it reaches neither the table nor `n`), adds one to `n`
per non-missing element and to `counts[s]` per occurrence of state `s`;
a fresh counter satisfies `n = sum counts` and every successful
application preserves that equation, so it holds after any sequence of
applications starting from a fresh counter. -/
theorem stateCounts_call_spec (c c' : StateCounts) (v : List Int)
    (h : c.apply v = Except.ok c') :
    c'.n = c.n + v.countP (fun x => x != mask) ∧
    (∀ s : Nat, c'.counts.getD s 0 = c.counts.getD s 0 + v.count (Int.ofNat s)) ∧
    (∀ r, (StateCounts.fresh r).n = (StateCounts.fresh r).counts.sum) ∧
    (c.n = c.counts.sum → c'.n = c'.counts.sum) := by
  obtain ⟨hlen, href, hn, hsum, hmem, hget⟩ := apply_ok_spec v c c' h
  refine ⟨hn, hget, ?_, ?_⟩
  · intro r
    simp [StateCounts.fresh]
  · intro hb
    rw [hn, hsum, hb]

/-- Witness for C3 on a concrete view with one missing element. -/
theorem stateCounts_call_witness :
    (3 : Nat) = 0 + [0, 1, mask, 1].countP (fun x => x != mask) :=
  (stateCounts_call_spec (StateCounts.fresh none) ⟨[1, 2, 0, 0], none, 3⟩
    [0, 1, mask, 1] (by decide)).1

/-- C10: the counter's bounds-checked read returns `counts[i]` exactly
when `i` is inside the table and fails otherwise; as a total function
of the table it never reads outside it. -/
theorem stateCounts_getitem_spec (c : StateCounts) (i : Nat) :
    (i < c.counts.length → c.getitem i = Except.ok (c.counts.getD i 0)) ∧
    (c.counts.length ≤ i → c.getitem i = Except.error "index out of range") := by
  constructor
  · intro h
    rw [StateCounts.getitem, if_pos h]
  · intro h
    rw [StateCounts.getitem, if_neg (by omega)]

/-- Witness for C10 on a two-entry table. -/
theorem stateCounts_getitem_witness :
    StateCounts.getitem ⟨[5, 7], none, 12⟩ 1 = Except.ok 7 ∧
    StateCounts.getitem ⟨[5, 7], none, 12⟩ 2 = Except.error "index out of range" :=
  ⟨(stateCounts_getitem_spec ⟨[5, 7], none, 12⟩ 1).1 (by decide),
   (stateCounts_getitem_spec ⟨[5, 7], none, 12⟩ 2).2 (by decide)⟩

/-- C4: on success, the scanner's output is the in-site-order
`filterMap` of the per-site counters keeping exactly the variable
sites, and a site's counter passes the variability test iff the site
view holds more than one distinct non-missing allelic state; sites
with zero or one distinct non-missing state contribute no entry. -/
theorem process_variable_sites_spec (m : VariantMatrix) (refs : Nat → Option Int)
    (cs : List StateCounts) (h : process_variable_sites m refs = Except.ok cs) :
    cs = (List.range m.nsites).filterMap (fun i =>
      match (StateCounts.fresh (refs i)).apply (m.site i) with
      | Except.ok c => if isVariable c then some c else none
      | Except.error _ => none) ∧
    (∀ i, i < m.nsites → ∀ c,
      (StateCounts.fresh (refs i)).apply (m.site i) = Except.ok c →
      (isVariable c = true ↔
        ∃ a ∈ m.site i, ∃ b ∈ m.site i, a ≠ mask ∧ b ≠ mask ∧ a ≠ b)) := by
  obtain ⟨hcs, -⟩ := scanSites_ok m refs (List.range m.nsites) cs h
  exact ⟨hcs, fun i _ c hc => isVariable_iff (refs i) (m.site i) c hc⟩

/-- Witness for C4 at the example store with no reference state. -/
theorem process_variable_sites_witness :
    ([⟨[1, 1, 0, 0], none, 2⟩, ⟨[1, 1, 0, 0], none, 2⟩] : List StateCounts)
      = (List.range exM.nsites).filterMap (fun i =>
          match (StateCounts.fresh none).apply (exM.site i) with
          | Except.ok c => if isVariable c then some c else none
          | Except.error _ => none) :=
  (process_variable_sites_spec exM (fun _ => none)
    [⟨[1, 1, 0, 0], none, 2⟩, ⟨[1, 1, 0, 0], none, 2⟩] (by decide)).1

/-- C7: the flat-list construction fails exactly when no sample count
is consistent with the two buffer lengths; the ndarray overload fails
whenever the data is not 2-D, and, for 2-D data, whenever the position
count differs from `data.shape[0]`; a successful construction commits
no partial state — it returns a store holding exactly the two input
buffers and satisfying the shape invariant. -/
theorem construct_invalid_shape_spec :
    (∀ (d : List Int) (p : List ℚ),
      isErr (VariantMatrix.construct d p) = true ↔ ¬ ∃ k, d.length = p.length * k) ∧
    (∀ (d : NDArray Int) (p : NDArray ℚ), d.shape.length ≠ 2 →
      isErr (VariantMatrix.fromNDArray d p) = true) ∧
    (∀ (d : NDArray Int) (p : NDArray ℚ), d.shape.length = 2 →
      p.flat.length ≠ d.shape.getD 0 0 →
      isErr (VariantMatrix.fromNDArray d p) = true) ∧
    (∀ (d : List Int) (p : List ℚ) (m : VariantMatrix),
      VariantMatrix.construct d p = Except.ok m →
      m.data = d ∧ m.positions = p ∧ WF m) := by
  refine ⟨?_, ?_, ?_, construct_ok⟩
  · intro d p
    unfold VariantMatrix.construct
    by_cases hp : p.length = 0
    · by_cases hd : d.length = 0
      · rw [if_pos hp, if_pos hd]
        simp only [isErr, Bool.false_eq_true, false_iff, not_not]
        exact ⟨0, by omega⟩
      · rw [if_pos hp, if_neg hd]
        simp only [isErr, true_iff]
        rintro ⟨k, hk⟩
        rw [hp] at hk
        omega
    · rw [if_neg hp]
      by_cases hm : d.length % p.length = 0
      · rw [if_pos hm]
        simp only [isErr, Bool.false_eq_true, false_iff, not_not]
        exact ⟨d.length / p.length, (Nat.mul_div_cancel' (Nat.dvd_of_mod_eq_zero hm)).symm⟩
      · rw [if_neg hm]
        simp only [isErr, true_iff]
        rintro ⟨k, hk⟩
        apply hm
        rw [hk]
        exact Nat.mul_mod_right p.length k
  · intro d p h2
    unfold VariantMatrix.fromNDArray
    rw [if_pos h2]
    rfl
  · intro d p h2 h3
    unfold VariantMatrix.fromNDArray
    rw [if_neg (fun hh => hh h2)]
    by_cases hps : p.shape.length = 1
    · rw [if_neg (fun hh => hh hps), if_pos h3]
      rfl
    · rw [if_pos hps]
      rfl

/-- Witness for C7: an indivisible flat buffer, a 1-D data array, a
2-D data array with too few positions, and one successful build. -/
theorem construct_invalid_shape_witness :
    isErr (VariantMatrix.construct [0, 1, 1] [mkRat 1 10, mkRat 2 10]) = true ∧
    isErr (VariantMatrix.fromNDArray ⟨[4], [0, 1, 1, 0]⟩
      ⟨[2], [mkRat 1 10, mkRat 2 10]⟩) = true ∧
    isErr (VariantMatrix.fromNDArray ⟨[2, 2], [0, 1, 1, 0]⟩
      ⟨[1], [mkRat 1 10]⟩) = true ∧
    exM.data = [0, 1, 1, 0] :=
  ⟨(construct_invalid_shape_spec.1 [0, 1, 1] [mkRat 1 10, mkRat 2 10]).mpr
      (fun ⟨k, hk⟩ => by simp at hk; omega),
   construct_invalid_shape_spec.2.1 ⟨[4], [0, 1, 1, 0]⟩ _ (by decide),
   construct_invalid_shape_spec.2.2.1 ⟨[2, 2], [0, 1, 1, 0]⟩ ⟨[1], [mkRat 1 10]⟩
      (by decide) (by decide),
   (construct_invalid_shape_spec.2.2.2 [0, 1, 1, 0] [mkRat 1 10, mkRat 2 10] exM
      (by decide)).1⟩

/-- C8 counterexample: the claim fails as stated.  The reachable,
well-formed store obtained by filtering out every site of the example
store has nsam = 2, but its serialized pair is ([], []), from which
restoration rebuilds a store with nsam = 0: the sample count of a
site-free store cannot be recovered from the pair (data, positions). -/
theorem pickle_roundtrip_counterexample :
    WF (filter_sites exM (fun _ => true)) ∧
    (filter_sites exM (fun _ => true)).nsam = 2 ∧
    VariantMatrix.setstate (VariantMatrix.getstate (filter_sites exM (fun _ => true)))
      = Except.ok ⟨[], [], 0, 0⟩ ∧
    (0 : Nat) ≠ 2 := by
  refine ⟨by decide, by decide, by decide, by decide⟩

/-- C8 (amended): for every well-formed store that has at least one
site — or whose sample count is zero — serializing to the pair
(data, positions) and restoring reconstructs the identical store
(same nsites, nsam, buffer contents and positions). -/
theorem pickle_roundtrip_amended (m : VariantMatrix) (hwf : WF m)
    (h : m.nsites ≠ 0 ∨ m.nsam = 0) :
    VariantMatrix.setstate (VariantMatrix.getstate m) = Except.ok m := by
  obtain ⟨d, p, ns, na⟩ := m
  obtain ⟨h1, h2⟩ := hwf
  dsimp only at h1 h2 h
  unfold VariantMatrix.setstate VariantMatrix.getstate VariantMatrix.construct
  dsimp only
  by_cases hp : p.length = 0
  · have hns : ns = 0 := by omega
    have hna : na = 0 := by
      rcases h with h | h
      · exact absurd hns h
      · exact h
    have hd : d.length = 0 := by rw [h1, hns]; simp
    have hdnil : d = [] := List.length_eq_zero.mp hd
    have hpnil : p = [] := List.length_eq_zero.mp hp
    subst hdnil hpnil hns hna
    simp
  · rw [if_neg hp]
    have hmod : d.length % p.length = 0 := by
      rw [h1, h2]
      exact Nat.mul_mod_right ns na
    rw [if_pos hmod]
    have hdiv : d.length / p.length = na := by
      rw [h1, h2]
      exact Nat.mul_div_cancel_left na (by omega)
    rw [hdiv, h2]

/-- Witness for the amended C8 at the example store. -/
theorem pickle_roundtrip_witness :
    VariantMatrix.setstate (VariantMatrix.getstate exM) = Except.ok exM :=
  pickle_roundtrip_amended exM (by decide) (Or.inl (by decide))

/-- C9: for a 2-D array of r rows of length c and r positions, the
ndarray overload and the flat-list overload given the row-major
flattening produce the same result; when r is positive that result is
the store with the flattened buffer, the positions, nsites = r and
nsam = c. -/
theorem ndarray_list_overload_equiv (rows : List (List Int)) (c : Nat) (pos : List ℚ)
    (hrows : ∀ r ∈ rows, r.length = c) (hpos : pos.length = rows.length) :
    VariantMatrix.fromNDArray ⟨[rows.length, c], rows.flatten⟩ ⟨[pos.length], pos⟩
      = VariantMatrix.construct rows.flatten pos ∧
    (0 < rows.length →
      VariantMatrix.fromNDArray ⟨[rows.length, c], rows.flatten⟩ ⟨[pos.length], pos⟩
        = Except.ok ⟨rows.flatten, pos, rows.length, c⟩) := by
  have hflat : rows.flatten.length = rows.length * c := flatten_length_const c rows hrows
  have heq : VariantMatrix.fromNDArray ⟨[rows.length, c], rows.flatten⟩ ⟨[pos.length], pos⟩
      = VariantMatrix.construct rows.flatten pos := by
    unfold VariantMatrix.fromNDArray
    rw [if_neg (fun hh => hh rfl), if_neg (fun hh => hh rfl),
      if_neg (fun hh => hh hpos)]
  refine ⟨heq, fun hr => ?_⟩
  rw [heq]
  unfold VariantMatrix.construct
  rw [if_neg (by omega : ¬ pos.length = 0)]
  have hmod : rows.flatten.length % pos.length = 0 := by
    rw [hflat, hpos]
    exact Nat.mul_mod_right rows.length c
  rw [if_pos hmod]
  have hdiv : rows.flatten.length / pos.length = c := by
    rw [hflat, hpos]
    exact Nat.mul_div_cancel_left c hr
  rw [hdiv, hpos]

/-- Witness for C9 on the example 2x2 array. -/
theorem ndarray_list_overload_witness :
    VariantMatrix.fromNDArray ⟨[2, 2], [0, 1, 1, 0]⟩ ⟨[2], [mkRat 1 10, mkRat 2 10]⟩
      = Except.ok exM :=
  (ndarray_list_overload_equiv [[0, 1], [1, 0]] 2 [mkRat 1 10, mkRat 2 10]
    (by decide) (by decide)).2 (by decide)

/-- C5: on a well-formed store, `filter_sites` with the always-false
predicate is the identity, with the always-true predicate it leaves
zero sites, and for every predicate the retained sites are exactly
those the predicate rejects, laid out contiguously in their original
relative order (a strictly increasing index list K), with positions
compacted in lock-step with the data rows. -/
theorem filter_sites_spec (m : VariantMatrix) (hwf : WF m) :
    filter_sites m (fun _ => false) = m ∧
    (filter_sites m (fun _ => true)).nsites = 0 ∧
    (∀ f : List Int → Bool, ∃ K : List Nat,
      K.Pairwise (· < ·) ∧
      (∀ i, i ∈ K ↔ (i < m.nsites ∧ f (m.site i) = false)) ∧
      (filter_sites m f).nsites = K.length ∧
      (∀ j, j < K.length →
        (filter_sites m f).site j = m.site (K.getD j 0) ∧
        (filter_sites m f).positions[j]? = m.positions[K.getD j 0]?)) := by
  obtain ⟨h1, h2⟩ := hwf
  refine ⟨?_, ?_, ?_⟩
  · have hkept : (List.range m.nsites).filter (fun i => ! (fun _ => false) (m.site i))
        = List.range m.nsites := by
      simp
    have hdata : ((List.range m.nsites).map (fun i => m.site i)).flatten = m.data := by
      have hc := flatten_chunks m.nsam m.nsites m.data h1
      simpa [VariantMatrix.site] using hc
    have hposs : (List.range m.nsites).filterMap (fun i => m.positions[i]?)
        = m.positions := by
      have hr := filterMap_getElem?_range m.positions
      rw [h2] at hr
      exact hr
    obtain ⟨d, p, ns, na⟩ := m
    dsimp only at h1 h2 hkept hdata hposs
    unfold filter_sites
    dsimp only
    rw [hkept, hdata, hposs, List.length_range]
  · unfold filter_sites
    simp
  · intro f
    have hK := filter_sites_kept m f
    set K := (List.range m.nsites).filter (fun i => ! f (m.site i)) with hKdef
    obtain ⟨hpw, hmemK⟩ := hK
    have hmemlt : ∀ i ∈ K, i < m.nsites := fun i hi => ((hmemK i).mp hi).1
    have hrows : ∀ x ∈ K.map (fun i => m.site i), x.length = m.nsam := by
      intro x hx
      obtain ⟨i, hi, rfl⟩ := List.mem_map.mp hx
      exact length_site m ⟨h1, h2⟩ i (hmemlt i hi)
    refine ⟨K, hpw, hmemK, rfl, ?_⟩
    intro j hj
    have hKj := List.getElem?_eq_getElem (show j < K.length from hj)
    have hmap : (K.map (fun i => m.site i)).getD j [] = m.site (K.getD j 0) := by
      rw [List.getD_eq_getElem?_getD, List.getElem?_map, hKj, Option.map_some',
        Option.getD_some, List.getD_eq_getElem?_getD, hKj, Option.getD_some]
    constructor
    · have hex := flatten_chunk_getD m.nsam (K.map (fun i => m.site i)) j hrows
        (by rw [List.length_map]; exact hj)
      show ((K.map (fun i => m.site i)).flatten.drop (j * m.nsam)).take m.nsam
        = m.site (K.getD j 0)
      rw [hex, hmap]
    · show (K.filterMap (fun i => m.positions[i]?))[j]? = m.positions[K.getD j 0]?
      exact filterMap_getElem?_getElem? m.positions K j
        (fun i hi => by rw [h2]; exact hmemlt i hi) hj

/-- Witness for C5 at the example store. -/
theorem filter_sites_witness :
    filter_sites exM (fun _ => false) = exM ∧
    (filter_sites exM (fun _ => true)).nsites = 0 :=
  ⟨(filter_sites_spec exM (by decide)).1, (filter_sites_spec exM (by decide)).2.1⟩

/-- C6: `filter_haplotypes` leaves positions
and nsites unchanged, sets nsam to the retained sample count, and, for
every site, the resulting row is exactly the original row restricted
to the retained columns in their original relative order (a strictly
increasing column-index list K) — the removed columns are absent. -/
theorem filter_haplotypes_spec (m : VariantMatrix) (f : List Int → Bool) :
    (filter_haplotypes m f).positions = m.positions ∧
    (filter_haplotypes m f).nsites = m.nsites ∧
    ∃ K : List Nat,
      K.Pairwise (· < ·) ∧
      (∀ j, j ∈ K ↔ (j < m.nsam ∧ f (m.sample j) = false)) ∧
      (filter_haplotypes m f).nsam = K.length ∧
      (∀ i, i < m.nsites →
        (filter_haplotypes m f).site i = K.map (fun j => (m.site i).getD j 0)) := by
  refine ⟨rfl, rfl, ?_⟩
  set K := (List.range m.nsam).filter (fun j => ! f (m.sample j)) with hKdef
  have hpw : K.Pairwise (· < ·) :=
    (List.pairwise_lt_range m.nsam).sublist (List.filter_sublist _)
  have hmemK : ∀ j, j ∈ K ↔ (j < m.nsam ∧ f (m.sample j) = false) := by
    intro j
    rw [hKdef, List.mem_filter, List.mem_range]
    simp [Bool.not_eq_true']
  refine ⟨K, hpw, hmemK, rfl, ?_⟩
  intro i hi
  set rows := (List.range m.nsites).map
    (fun i => K.map (fun j => m.data.getD (i * m.nsam + j) 0)) with hrowsdef
  have hlen : ∀ x ∈ rows, x.length = K.length := by
    intro x hx
    obtain ⟨i', _, rfl⟩ := List.mem_map.mp hx
    exact List.length_map _ _
  have hilen : i < rows.length := by
    rw [hrowsdef, List.length_map, List.length_range]
    exact hi
  have hex := flatten_chunk_getD K.length rows i hlen hilen
  have hrow : rows.getD i [] = K.map (fun j => m.data.getD (i * m.nsam + j) 0) := by
    rw [List.getD_eq_getElem?_getD, hrowsdef, List.getElem?_map,
      List.getElem?_range hi, Option.map_some', Option.getD_some]
  have hcongr : K.map (fun j => m.data.getD (i * m.nsam + j) 0)
      = K.map (fun j => (m.site i).getD j 0) := by
    refine List.map_congr_left ?_
    intro j hj
    exact (getD_site m i j ((hmemK j).mp hj).1).symm
  show ((rows.flatten.drop (i * K.length)).take K.length) = K.map (fun j => (m.site i).getD j 0)
  rw [hex, hrow, hcongr]

/-- Witness for C6 at the example store. -/
theorem filter_haplotypes_witness :
    (filter_haplotypes exM (fun v => v.getD 0 0 == 1)).positions = exM.positions ∧
    (filter_haplotypes exM (fun v => v.getD 0 0 == 1)).nsites = exM.nsites :=
  ⟨(filter_haplotypes_spec exM (fun v => v.getD 0 0 == 1)).1,
   (filter_haplotypes_spec exM (fun v => v.getD 0 0 == 1)).2.1⟩

end Sequence
